import Mathlib

/-!
Verification of the incremental SSE event-stream decoder of `openai-rust`
(`src/chat.rs`, module `stream`): `ChatCompletionChunkStream::deserialize_buf`
and the `Stream::poll_next` implementation.

Modelling choices (shallow embedding):
* Rust strings are modelled as `List Char` (`Str`).  The splitter works on the
  UTF-8 text; since the delimiter `"\n\n"` and the marker `"data: "` are ASCII
  and UTF-8 is self-synchronizing, the byte-wise Rust operations `split`,
  `strip_prefix` and `ends_with` coincide with the character-wise ones.
* Raw chunks from the HTTP body are byte lists (`List Nat`, each < 256);
  `str::from_utf8` is modelled by `utf8Decode`, a full UTF-8 validator/decoder.
* `serde_json::from_str::<ChatCompletionChunk>` is an external collaborator
  (a JSON codec); it is modelled as an abstract parameter
  `parse : Str → Except Str α` — the decoder never inspects the result, it
  only wraps it, so every theorem is stated for an arbitrary `parse`.
* The asynchronous byte source is a list of items (`SrcItem`): each poll of the
  underlying stream consumes one item (`ok bytes` or a transport `err`), and an
  empty list is the end of the body.  `cx.waker().wake_by_ref()` is modelled as
  a boolean "wake was scheduled" output of `poll`.
* `run` is the pull loop: it polls repeatedly (with fuel), collects the items
  of `Poll::Ready(Some _)` results, and stops at `Poll::Ready(None)`,
  reporting completion.
-/

/-- Rust `str` contents, as a list of characters. -/
abbrev Str := List Char

/-- The newline character. -/
def nl : Char := Char.ofNat 10

/-- The closing-brace character `}`. -/
def rbrace : Char := Char.ofNat 125

/-- The frame delimiter `"\n\n"`. -/
def nn : Str := [nl, nl]

/-- Whether the text contains the delimiter `"\n\n"` as a substring. -/
def hasNN : Str → Bool
  | a :: b :: t => if a = nl ∧ b = nl then true else hasNN (b :: t)
  | _ => false

/-- Prepend a character to the first part of a split result. -/
def consHead (c : Char) : List Str → List Str
  | [] => [[c]]
  | h :: r => (c :: h) :: r

/-- Rust `buf.split("\n\n")`: split on each non-overlapping occurrence of the
delimiter, scanning left to right.  Always returns at least one segment. -/
def splitOnNN : Str → List Str
  | a :: b :: t => if a = nl ∧ b = nl then [] :: splitOnNN t else consHead a (splitOnNN (b :: t))
  | [a] => [[a]]
  | [] => [[]]

/-- Rust `segments.join("\n\n")`. -/
def joinNN : List Str → Str
  | [] => []
  | [x] => x
  | x :: r => x ++ nn ++ joinNN r

/-- The `"data: "` marker. -/
def dataTag : Str := "data: ".toList

/-- Rust `first.strip_prefix("data: ")`. -/
def stripTag : Str → Option Str
  | 'd' :: 'a' :: 't' :: 'a' :: ':' :: ' ' :: rest => some rest
  | _ => none

/-- Rust `chunk.ends_with("}")`. -/
def endsWithBrace (l : Str) : Bool := l.getLast? = some rbrace

/-- Whether a head segment would be emitted by `deserialize_buf`: it carries
the `"data: "` marker and, once stripped, ends with `}`. -/
def emits (l : Str) : Bool :=
  match stripTag l with
  | some c => endsWithBrace c
  | none => false

/-- The wake flag computed by `deserialize_buf` for a remainder `rest` of the
buffer: the peeked second segment, if any, ends with `}`. -/
def wakeOf (rest : Str) : Bool :=
  match (splitOnNN rest).head? with
  | some second => endsWithBrace second
  | none => false

/-- `ChatCompletionChunkStream::deserialize_buf`.  Given the buffer, split on
`"\n\n"`; if the first segment strips the `"data: "` marker and ends with `}`,
emit `parse` of the stripped payload, replace the buffer by the joined
remainder, and schedule a wake iff the peeked second segment ends with `}`.
Otherwise emit nothing and leave the buffer unchanged.  Returns
`some (item, newBuffer, wake)` or `none`. -/
def deserialize_buf {α : Type} (parse : Str → Except Str α) (buf : Str) :
    Option (Except Str α × Str × Bool) :=
  match splitOnNN buf with
  | [] => none
  | first :: rest =>
    match stripTag first with
    | none => none
    | some chunk =>
      if endsWithBrace chunk then
        let wake : Bool :=
          match rest.head? with
          | some second => endsWithBrace second
          | none => false
        some (parse chunk, joinNN rest, wake)
      else
        none

/-- One item of the underlying byte stream (`reqwest::Result<Bytes>`). -/
inductive SrcItem : Type where
  | ok (bytes : List Nat)
  | err (msg : Str)
deriving DecidableEq

/-- The state of a `ChatCompletionChunkStream`: its text buffer and the
not-yet-consumed items of the underlying byte stream. -/
structure DecState : Type where
  buf : Str
  source : List SrcItem
deriving DecidableEq

/-- The result of one `poll_next`: `pending` or `ready none` (stream end) or
`ready (some item)`. -/
inductive PollRes (α : Type) : Type where
  | pending
  | ready (item : Option (Except Str α))

/-- The error message used for invalid UTF-8 bytes (`str::from_utf8` failing). -/
def utf8ErrMsg : Str := "invalid utf-8".toList

/-- Full UTF-8 validation/decoding of a byte list, as `str::from_utf8`:
rejects stray continuation bytes, overlong encodings, surrogates and
code points above `0x10FFFF`. -/
def utf8Decode : List Nat → Option Str
  | [] => some []
  | b :: t =>
    if b < 0x80 then
      (utf8Decode t).map (fun r => Char.ofNat b :: r)
    else if 0xC2 ≤ b ∧ b ≤ 0xDF then
      match t with
      | b2 :: t2 =>
        if 0x80 ≤ b2 ∧ b2 ≤ 0xBF then
          (utf8Decode t2).map (fun r => Char.ofNat ((b % 0x20) * 0x40 + b2 % 0x40) :: r)
        else none
      | [] => none
    else if 0xE0 ≤ b ∧ b ≤ 0xEF then
      match t with
      | b2 :: b3 :: t3 =>
        let lo2 : Nat := if b = 0xE0 then 0xA0 else 0x80
        let hi2 : Nat := if b = 0xED then 0x9F else 0xBF
        if (lo2 ≤ b2 ∧ b2 ≤ hi2) ∧ (0x80 ≤ b3 ∧ b3 ≤ 0xBF) then
          (utf8Decode t3).map
            (fun r => Char.ofNat ((b % 0x10) * 0x1000 + (b2 % 0x40) * 0x40 + b3 % 0x40) :: r)
        else none
      | _ => none
    else if 0xF0 ≤ b ∧ b ≤ 0xF4 then
      match t with
      | b2 :: b3 :: b4 :: t4 =>
        let lo2 : Nat := if b = 0xF0 then 0x90 else 0x80
        let hi2 : Nat := if b = 0xF4 then 0x8F else 0xBF
        if (lo2 ≤ b2 ∧ b2 ≤ hi2) ∧ (0x80 ≤ b3 ∧ b3 ≤ 0xBF) ∧ (0x80 ≤ b4 ∧ b4 ≤ 0xBF) then
          (utf8Decode t4).map
            (fun r =>
              Char.ofNat ((b % 8) * 0x40000 + (b2 % 0x40) * 0x1000 + (b3 % 0x40) * 0x40 + b4 % 0x40) :: r)
        else none
      | _ => none
    else none

/-- `Stream::poll_next` for `ChatCompletionChunkStream`.  First try the
buffer; if it yields nothing, poll the byte source: on end report stream end,
on transport error surface it, on bytes decode them (an invalid encoding is
surfaced as an error and the bytes are dropped), append to the buffer, retry
the buffer, and if still nothing schedule a wake and return `pending`.
Returns the poll result, the successor state, and the wake flag. -/
def poll {α : Type} (parse : Str → Except Str α) (s : DecState) :
    PollRes α × DecState × Bool :=
  match deserialize_buf parse s.buf with
  | some (item, buf2, wake) => (.ready (some item), ⟨buf2, s.source⟩, wake)
  | none =>
    match s.source with
    | [] => (.ready none, s, false)
    | .err e :: rest => (.ready (some (.error e)), ⟨s.buf, rest⟩, false)
    | .ok bytes :: rest =>
      match utf8Decode bytes with
      | none => (.ready (some (.error utf8ErrMsg)), ⟨s.buf, rest⟩, false)
      | some data =>
        match deserialize_buf parse (s.buf ++ data) with
        | some (item, buf2, wake) => (.ready (some item), ⟨buf2, rest⟩, wake)
        | none => (.pending, ⟨s.buf ++ data, rest⟩, true)

/-- Drive the stream: poll repeatedly (up to `fuel` polls), collecting every
item of a `ready (some _)` result in order; the boolean is `true` iff the
stream reported its end (`ready none`) within the fuel. -/
def run {α : Type} (parse : Str → Except Str α) : Nat → DecState → List (Except Str α) × Bool
  | 0, _ => ([], false)
  | fuel + 1, s =>
    match poll parse s with
    | (.pending, s2, _) => run parse fuel s2
    | (.ready none, _, _) => ([], true)
    | (.ready (some item), s2, _) =>
      let p := run parse fuel s2
      (item :: p.1, p.2)

/-- The stream, pulled repeatedly from state `s`, yields exactly the items
`items` in order and then reports its end: with enough fuel, `run` returns
`(items, true)`. -/
def Completes {α : Type} (parse : Str → Except Str α) (s : DecState)
    (items : List (Except Str α)) : Prop :=
  ∃ b, ∀ g, b ≤ g → run parse g s = (items, true)

/-- The wire text of one data frame carrying payload `p`. -/
def frameOf (p : Str) : Str := dataTag ++ p ++ nn

/-- The wire text of a list of consecutive data frames. -/
def framesOf (ps : List Str) : Str := (ps.map frameOf).flatten

/-- The termination token `"data: [DONE]"`. -/
def doneTok : Str := "data: [DONE]".toList

/-- The termination frame `"data: [DONE]\n\n"`. -/
def doneFrame : Str := doneTok ++ nn

/-- A payload that the frame splitter handles as one frame: it does not
contain the frame delimiter and it ends with `}` (as every JSON object
serialization does). -/
def goodPayload (p : Str) : Prop := hasNN p = false ∧ endsWithBrace p = true

instance (p : Str) : Decidable (goodPayload p) :=
  inferInstanceAs (Decidable (hasNN p = false ∧ endsWithBrace p = true))

/-- Append the termination frame to the last chunk of a chunk list (or make it
the only chunk). -/
def attachDone : List Str → List Str
  | [] => [doneFrame]
  | [c] => [c ++ doneFrame]
  | c :: r => c :: attachDone r

/-- The text chunks of a frame-aligned chunking: chunk `i` carries the
consecutive frames of payload group `i`, and the last chunk additionally
carries the termination frame. -/
def chunkTexts (pss : List (List Str)) : List Str := attachDone (pss.map framesOf)

/-- Bytes of an ASCII text (each character below 128). -/
def asciiB (l : Str) : List Nat := l.map Char.toNat

/-- A trivial payload parser (used to instantiate counterexamples and
witnesses): every payload parses, to itself. -/
def okParse : Str → Except Str Str := fun s => Except.ok s

/-- A payload parser model that accepts exactly the two-character payloads
(such as an empty JSON object) and rejects everything else; used to witness
claims that need both a parsing and a non-parsing payload. -/
def lenParse : Str → Except Str Str :=
  fun s => if s.length = 2 then Except.ok s else Except.error s

/-! ### Lemmas about the frame splitter -/

theorem consHead_cons (c : Char) (h : Str) (r : List Str) :
    consHead c (h :: r) = (c :: h) :: r := rfl

theorem splitOnNN_ne_nil (l : Str) : splitOnNN l ≠ [] := by
  match l with
  | [] => simp [splitOnNN]
  | [a] => simp [splitOnNN]
  | a :: b :: t =>
    rw [splitOnNN]
    split
    · simp
    · cases h : splitOnNN (b :: t) <;> simp [consHead]

theorem hasNN_cons_cons {a b : Char} {t : Str} (h : hasNN (a :: b :: t) = false) :
    ¬(a = nl ∧ b = nl) ∧ hasNN (b :: t) = false := by
  by_cases hab : a = nl ∧ b = nl
  · simp [hasNN, hab] at h
  · exact ⟨hab, by simpa [hasNN, hab] using h⟩

theorem splitOnNN_append (l r : Str) (h1 : hasNN l = false) (h2 : l.getLast? ≠ some nl) :
    splitOnNN (l ++ nn ++ r) = l :: splitOnNN r := by
  induction l with
  | nil =>
    show splitOnNN (nl :: nl :: r) = [] :: splitOnNN r
    simp [splitOnNN]
  | cons a l ih =>
    cases l with
    | nil =>
      have ha : ¬(a = nl) := by simpa using h2
      show splitOnNN (a :: nl :: nl :: r) = [a] :: splitOnNN r
      rw [splitOnNN, if_neg (by simp [ha]),
        show splitOnNN (nl :: nl :: r) = [] :: splitOnNN r by simp [splitOnNN]]
      rfl
    | cons b t =>
      obtain ⟨hab, hbt⟩ := hasNN_cons_cons h1
      have h2' : (b :: t).getLast? ≠ some nl := by
        simpa [List.getLast?_cons_cons] using h2
      show splitOnNN (a :: ((b :: t) ++ nn ++ r)) = (a :: b :: t) :: splitOnNN r
      have hstep : (b :: t) ++ nn ++ r = b :: (t ++ nn ++ r) := by simp
      rw [hstep, splitOnNN, if_neg (by simpa [hstep] using hab), ← hstep, ih hbt h2',
        consHead_cons]

theorem splitOnNN_of_hasNN_eq_false {l : Str} (h : hasNN l = false) :
    splitOnNN l = [l] := by
  induction l with
  | nil => rfl
  | cons a l ih =>
    cases l with
    | nil => rfl
    | cons b t =>
      obtain ⟨hab, hbt⟩ := hasNN_cons_cons h
      rw [splitOnNN, if_neg hab, ih hbt, consHead_cons]

theorem joinNN_splitOnNN (l : Str) : joinNN (splitOnNN l) = l := by
  induction l using splitOnNN.induct with
  | case1 a b t hab ih =>
    obtain ⟨ha, hb⟩ := hab
    subst ha
    subst hb
    rw [splitOnNN, if_pos ⟨rfl, rfl⟩]
    cases h : splitOnNN t with
    | nil => exact absurd h (splitOnNN_ne_nil t)
    | cons x r =>
      rw [h] at ih
      simp only [joinNN]
      cases r <;> simp_all [joinNN, nn]
  | case2 a b t hab ih =>
    rw [splitOnNN, if_neg hab]
    cases h : splitOnNN (b :: t) with
    | nil => exact absurd h (splitOnNN_ne_nil _)
    | cons x r =>
      rw [h] at ih
      rw [consHead_cons]
      cases r <;> simp_all [joinNN, nn]
  | case3 a => rfl
  | case4 => rfl

theorem getLast?_cons_ne_nil (a : Char) {l : Str} (h : l ≠ []) :
    (a :: l).getLast? = l.getLast? := by
  cases l with
  | nil => exact absurd rfl h
  | cons b t => exact List.getLast?_cons_cons

theorem hasNN_tail {a : Char} {l : Str} (h : hasNN (a :: l) = false) : hasNN l = false := by
  cases l with
  | nil => rfl
  | cons b t => exact (hasNN_cons_cons h).2

theorem hasNN_cons_of {a : Char} {l : Str} (h1 : hasNN l = false)
    (h2 : ¬(a = nl ∧ l.head? = some nl)) : hasNN (a :: l) = false := by
  cases l with
  | nil => rfl
  | cons b t =>
    have : ¬(a = nl ∧ b = nl) := by simpa using h2
    simp [hasNN, this, h1]

theorem hasNN_append {l r : Str} (hl : hasNN l = false) (hr : hasNN r = false)
    (hlr : l.getLast? = some nl → r.head? ≠ some nl) : hasNN (l ++ r) = false := by
  induction l with
  | nil => simpa using hr
  | cons a l ih =>
    have htail : hasNN (l ++ r) = false := by
      apply ih (hasNN_tail hl)
      intro hlast
      have hne : l ≠ [] := by intro hl0; simp [hl0] at hlast
      exact hlr (by rwa [getLast?_cons_ne_nil a hne])
    rw [List.cons_append]
    apply hasNN_cons_of htail
    rintro ⟨ha, hh⟩
    cases l with
    | nil =>
      exact hlr (by simp [ha]) (by simpa using hh)
    | cons b t =>
      have hb : b = nl := by simpa using hh
      exact (hasNN_cons_cons hl).1 ⟨ha, hb⟩

theorem endsWithBrace_getLast? {p : Str} (h : endsWithBrace p = true) :
    p.getLast? = some rbrace := by
  simpa [endsWithBrace] using h

theorem endsWithBrace_ne_nil {p : Str} (h : endsWithBrace p = true) : p ≠ [] := by
  intro h0
  rw [h0] at h
  simp [endsWithBrace] at h

theorem endsWithBrace_append {l p : Str} (h : p ≠ []) :
    endsWithBrace (l ++ p) = endsWithBrace p := by
  simp [endsWithBrace, List.getLast?_append_of_ne_nil _ h]

theorem stripTag_dataTag_append (p : Str) : stripTag (dataTag ++ p) = some p := rfl

/-! ### Lemmas about `deserialize_buf` -/

theorem deserialize_buf_nil {α : Type} (parse : Str → Except Str α) :
    deserialize_buf parse [] = none := rfl

/-- A complete well-formed data frame at the head of the buffer is emitted:
its payload is parsed, the frame and its delimiter are removed from the
buffer, and the wake flag is the look-ahead check on the rest. -/
theorem deserialize_buf_frame {α : Type} (parse : Str → Except Str α) {p : Str}
    (hp : goodPayload p) (rest : Str) :
    deserialize_buf parse (frameOf p ++ rest) = some (parse p, rest, wakeOf rest) := by
  obtain ⟨hnn, hbr⟩ := hp
  have hpne : p ≠ [] := endsWithBrace_ne_nil hbr
  have htag : hasNN (dataTag ++ p) = false := by
    apply hasNN_append (by decide) hnn
    intro h
    exact absurd h (by decide)
  have hlast : (dataTag ++ p).getLast? ≠ some nl := by
    rw [List.getLast?_append_of_ne_nil _ hpne, endsWithBrace_getLast? hbr]
    decide
  have hsplit : splitOnNN (frameOf p ++ rest) = (dataTag ++ p) :: splitOnNN rest := by
    have : frameOf p ++ rest = (dataTag ++ p) ++ nn ++ rest := by
      simp [frameOf]
    rw [this, splitOnNN_append _ _ htag hlast]
  rw [deserialize_buf, hsplit]
  dsimp only
  rw [stripTag_dataTag_append]
  dsimp only
  rw [if_pos hbr, joinNN_splitOnNN]
  rfl

/-- A head segment that would not be emitted (marker missing or no closing
brace) blocks `deserialize_buf`: nothing is emitted, for any buffer tail. -/
theorem deserialize_buf_blocked {α : Type} (parse : Str → Except Str α) {h : Str}
    (h1 : hasNN h = false) (h2 : h.getLast? ≠ some nl) (h3 : emits h = false) (rest : Str) :
    deserialize_buf parse (h ++ nn ++ rest) = none := by
  rw [deserialize_buf, splitOnNN_append _ _ h1 h2]
  dsimp only
  cases hs : stripTag h with
  | none => rfl
  | some c =>
    have hc : endsWithBrace c = false := by simpa [emits, hs] using h3
    simp [hc]

/-- A buffer with no complete delimiter and a head that would not be emitted
yields nothing. -/
theorem deserialize_buf_incomplete {α : Type} (parse : Str → Except Str α) {l : Str}
    (h1 : hasNN l = false) (h3 : emits l = false) :
    deserialize_buf parse l = none := by
  rw [deserialize_buf, splitOnNN_of_hasNN_eq_false h1]
  dsimp only
  cases hs : stripTag l with
  | none => rfl
  | some c =>
    have hc : endsWithBrace c = false := by simpa [emits, hs] using h3
    simp [hc]

/-- The termination frame at the head of the buffer is never emitted,
whatever follows it. -/
theorem deserialize_buf_done {α : Type} (parse : Str → Except Str α) (rest : Str) :
    deserialize_buf parse (doneFrame ++ rest) = none := by
  have : doneFrame ++ rest = doneTok ++ nn ++ rest := by simp [doneFrame]
  rw [this]
  exact deserialize_buf_blocked parse (by decide) (by decide) (by decide) rest

/-! ### Lemmas about `poll` and `run` -/

theorem poll_emit {α : Type} (parse : Str → Except Str α) {s : DecState}
    {item : Except Str α} {buf2 : Str} {wake : Bool}
    (h : deserialize_buf parse s.buf = some (item, buf2, wake)) :
    poll parse s = (.ready (some item), ⟨buf2, s.source⟩, wake) := by
  rw [poll, h]

theorem poll_end {α : Type} (parse : Str → Except Str α) {buf : Str}
    (h : deserialize_buf parse buf = none) :
    poll parse ⟨buf, []⟩ = (.ready none, ⟨buf, []⟩, false) := by
  rw [poll]
  dsimp only
  rw [h]

theorem poll_srcerr {α : Type} (parse : Str → Except Str α) {buf : Str}
    (h : deserialize_buf parse buf = none) (e : Str) (rest : List SrcItem) :
    poll parse ⟨buf, .err e :: rest⟩ = (.ready (some (.error e)), ⟨buf, rest⟩, false) := by
  rw [poll]
  dsimp only
  rw [h]

theorem poll_read_badutf8 {α : Type} (parse : Str → Except Str α) {buf : Str}
    {bytes : List Nat} (h : deserialize_buf parse buf = none)
    (hd : utf8Decode bytes = none) (rest : List SrcItem) :
    poll parse ⟨buf, .ok bytes :: rest⟩ =
      (.ready (some (.error utf8ErrMsg)), ⟨buf, rest⟩, false) := by
  rw [poll]
  dsimp only
  rw [h]
  dsimp only
  rw [hd]

theorem poll_read_emit {α : Type} (parse : Str → Except Str α) {buf data : Str}
    {bytes : List Nat} {item : Except Str α} {buf2 : Str} {wake : Bool}
    (h : deserialize_buf parse buf = none) (hd : utf8Decode bytes = some data)
    (he : deserialize_buf parse (buf ++ data) = some (item, buf2, wake))
    (rest : List SrcItem) :
    poll parse ⟨buf, .ok bytes :: rest⟩ = (.ready (some item), ⟨buf2, rest⟩, wake) := by
  rw [poll]
  dsimp only
  rw [h]
  dsimp only
  rw [hd]
  dsimp only
  rw [he]

theorem poll_read_pending {α : Type} (parse : Str → Except Str α) {buf data : Str}
    {bytes : List Nat}
    (h : deserialize_buf parse buf = none) (hd : utf8Decode bytes = some data)
    (he : deserialize_buf parse (buf ++ data) = none) (rest : List SrcItem) :
    poll parse ⟨buf, .ok bytes :: rest⟩ = (.pending, ⟨buf ++ data, rest⟩, true) := by
  rw [poll]
  dsimp only
  rw [h]
  dsimp only
  rw [hd]
  dsimp only
  rw [he]

theorem run_pending {α : Type} {parse : Str → Except Str α} {s s2 : DecState}
    {w : Bool} (h : poll parse s = (.pending, s2, w)) (n : Nat) :
    run parse (n + 1) s = run parse n s2 := by
  rw [run, h]

theorem run_end {α : Type} {parse : Str → Except Str α} {s s2 : DecState}
    {w : Bool} (h : poll parse s = (.ready none, s2, w)) (n : Nat) :
    run parse (n + 1) s = ([], true) := by
  rw [run, h]

theorem run_emit {α : Type} {parse : Str → Except Str α} {s s2 : DecState}
    {item : Except Str α} {w : Bool}
    (h : poll parse s = (.ready (some item), s2, w)) (n : Nat) :
    run parse (n + 1) s = (item :: (run parse n s2).1, (run parse n s2).2) := by
  rw [run, h]

/-! ### Composition rules for `Completes` -/

theorem completes_of_end {α : Type} {parse : Str → Except Str α} {buf : Str}
    (h : deserialize_buf parse buf = none) :
    Completes parse ⟨buf, []⟩ [] := by
  refine ⟨1, fun g hg => ?_⟩
  obtain ⟨g', rfl⟩ : ∃ g', g = g' + 1 := ⟨g - 1, by omega⟩
  rw [run_end (poll_end parse h)]

theorem completes_emit {α : Type} {parse : Str → Except Str α} {buf buf2 : Str}
    {item : Except Str α} {w : Bool} {src : List SrcItem} {items : List (Except Str α)}
    (h : deserialize_buf parse buf = some (item, buf2, w))
    (hc : Completes parse ⟨buf2, src⟩ items) :
    Completes parse ⟨buf, src⟩ (item :: items) := by
  obtain ⟨b, hb⟩ := hc
  refine ⟨b + 1, fun g hg => ?_⟩
  obtain ⟨g', rfl⟩ : ∃ g', g = g' + 1 := ⟨g - 1, by omega⟩
  rw [run_emit (poll_emit parse h), hb g' (by omega)]

theorem completes_read {α : Type} {parse : Str → Except Str α} {buf data : Str}
    {bytes : List Nat} {src : List SrcItem} {items : List (Except Str α)}
    (h : deserialize_buf parse buf = none) (hd : utf8Decode bytes = some data)
    (hc : Completes parse ⟨buf ++ data, src⟩ items) :
    Completes parse ⟨buf, .ok bytes :: src⟩ items := by
  obtain ⟨b, hb⟩ := hc
  refine ⟨b + 1, fun g hg => ?_⟩
  obtain ⟨g', rfl⟩ : ∃ g', g = g' + 1 := ⟨g - 1, by omega⟩
  cases he : deserialize_buf parse (buf ++ data) with
  | none =>
    rw [run_pending (poll_read_pending parse h hd he src) g', hb g' (by omega)]
  | some v =>
    obtain ⟨item, buf2, w⟩ := v
    rw [run_emit (poll_read_emit parse h hd he src) g']
    have h2 := hb (g' + 1) (by omega)
    rw [run_emit (poll_emit parse he) g'] at h2
    exact h2

theorem completes_drain {α : Type} {parse : Str → Except Str α} {qs : List Str}
    {tail : Str} {src : List SrcItem} {items : List (Except Str α)}
    (hg : ∀ q ∈ qs, goodPayload q)
    (hc : Completes parse ⟨tail, src⟩ items) :
    Completes parse ⟨framesOf qs ++ tail, src⟩ (qs.map parse ++ items) := by
  induction qs with
  | nil => simpa [framesOf] using hc
  | cons q qs ih =>
    have hframe : framesOf (q :: qs) ++ tail = frameOf q ++ (framesOf qs ++ tail) := by
      simp [framesOf]
    rw [hframe, List.map_cons, List.cons_append]
    exact completes_emit (deserialize_buf_frame parse (hg q (by simp)) _)
      (ih fun q hq => hg q (by simp [hq]))

theorem completes_done {α : Type} (parse : Str → Except Str α) (rest : Str) :
    Completes parse ⟨doneFrame ++ rest, []⟩ [] :=
  completes_of_end (deserialize_buf_done parse rest)

theorem attachDone_cons (c : Str) {cs : List Str} (h : cs ≠ []) :
    attachDone (c :: cs) = c :: attachDone cs := by
  cases cs with
  | nil => exact absurd rfl h
  | cons d cs => rfl

/-- Feeding a frame-aligned chunking: starting from an empty buffer, with the
byte source holding one chunk per payload group (the last chunk additionally
carrying the termination frame), the stream completes with exactly the parses
of all payloads, in order. -/
theorem completes_chunks {α : Type} (parse : Str → Except Str α) (pss : List (List Str)) :
    ∀ bss : List (List Nat),
    (∀ p ∈ pss.flatten, goodPayload p) →
    List.Forall₂ (fun b c => utf8Decode b = some c) bss (chunkTexts pss) →
    Completes parse ⟨[], bss.map SrcItem.ok⟩ (pss.flatten.map parse) := by
  induction pss with
  | nil =>
    intro bss hg hb
    have hct : chunkTexts [] = [doneFrame] := rfl
    rw [hct, List.forall₂_cons_right_iff] at hb
    obtain ⟨b0, bss', h1, h2, rfl⟩ := hb
    obtain rfl : bss' = [] := List.forall₂_nil_right_iff.mp h2
    have hdone : Completes parse ⟨doneFrame, []⟩ [] := by
      have := completes_done parse []
      rwa [List.append_nil] at this
    simpa using completes_read (deserialize_buf_nil parse) h1 (by simpa using hdone)
  | cons qs pss' ih =>
    intro bss hg hb
    have hgqs : ∀ q ∈ qs, goodPayload q := fun q hq =>
      hg q (by rw [List.flatten_cons]; exact List.mem_append_left _ hq)
    cases pss' with
    | nil =>
      have hct : chunkTexts [qs] = [framesOf qs ++ doneFrame] := rfl
      rw [hct, List.forall₂_cons_right_iff] at hb
      obtain ⟨b0, bss', h1, h2, rfl⟩ := hb
      obtain rfl : bss' = [] := List.forall₂_nil_right_iff.mp h2
      have hdone : Completes parse ⟨doneFrame, []⟩ [] := by
        have := completes_done parse []
        rwa [List.append_nil] at this
      have hdrain : Completes parse ⟨framesOf qs ++ doneFrame, []⟩ (qs.map parse) := by
        have := completes_drain hgqs hdone
        simpa using this
      simpa using completes_read (deserialize_buf_nil parse) h1 (by simpa using hdrain)
    | cons qs2 pss'' =>
      have hct : chunkTexts (qs :: qs2 :: pss'') = framesOf qs :: chunkTexts (qs2 :: pss'') := by
        rw [chunkTexts, List.map_cons, attachDone_cons _ (by simp)]
        rfl
      rw [hct, List.forall₂_cons_right_iff] at hb
      obtain ⟨b0, bss', h1, h2, rfl⟩ := hb
      have hih : Completes parse ⟨[], bss'.map SrcItem.ok⟩
          ((qs2 :: pss'').flatten.map parse) :=
        ih bss'
          (fun p hp => hg p (by rw [List.flatten_cons]; exact List.mem_append_right _ hp))
          h2
      have hdrain : Completes parse ⟨framesOf qs, bss'.map SrcItem.ok⟩
          (qs.map parse ++ (qs2 :: pss'').flatten.map parse) := by
        have := completes_drain hgqs hih
        rwa [List.append_nil] at this
      have hread := completes_read (deserialize_buf_nil parse) h1 (by simpa using hdrain)
      rw [List.flatten_cons, List.map_append, List.map_cons]
      simpa using hread

/-! ### Claim C1 -/

/-- C1 (counterexample): the claim is false for raw byte chunks in general.
The two chunks `"data: {}"` and `"\n\ndata: {}\n\ndata: [DONE]\n\n"`
concatenate to N = 2 well-formed data frames followed by the termination
frame, yet pulling yields only ONE event before completion: the first chunk
ends right after a closing brace, so the decoder emits the first payload
early, and the leftover leading `"\n\n"` leaves an empty head segment that
blocks the second frame forever. -/
theorem c1_counterexample :
    run okParse 4 ⟨[], [SrcItem.ok (asciiB "data: \x7b\x7d".toList),
        SrcItem.ok (asciiB "\n\ndata: \x7b\x7d\n\ndata: [DONE]\n\n".toList)]⟩
      = ([Except.ok "\x7b\x7d".toList], true) := rfl

/-- C1 (amended): for chunk sequences that are valid UTF-8 and whose
boundaries fall on frame boundaries — chunk `i` carries the frames of payload
group `i` and the last chunk also carries the termination frame — pulling
the stream yields exactly the N events of the N well-formed data frames, one
per frame and in frame order, and then reports completion. -/
theorem c1_amended {α : Type} (parse : Str → Except Str α) (pss : List (List Str))
    (bss : List (List Nat)) (evs : List α)
    (hg : ∀ p ∈ pss.flatten, goodPayload p)
    (hb : List.Forall₂ (fun b c => utf8Decode b = some c) bss (chunkTexts pss))
    (he : pss.flatten.map parse = evs.map Except.ok) :
    Completes parse ⟨[], bss.map SrcItem.ok⟩ (evs.map Except.ok) := by
  have h := completes_chunks parse pss bss hg hb
  rwa [he] at h

/-- C1 witness: one data frame and the termination frame in one chunk yield
exactly one event, then completion. -/
theorem c1_amended_witness :
    (∀ p ∈ [["\x7b\x7d".toList]].flatten, goodPayload p) ∧
    Completes okParse ⟨[], [SrcItem.ok (asciiB "data: \x7b\x7d\n\ndata: [DONE]\n\n".toList)]⟩
      [Except.ok "\x7b\x7d".toList] :=
  ⟨by decide,
    c1_amended okParse [["\x7b\x7d".toList]]
      [asciiB "data: \x7b\x7d\n\ndata: [DONE]\n\n".toList] ["\x7b\x7d".toList]
      (by decide) (List.Forall₂.cons rfl List.Forall₂.nil) rfl⟩

/-! ### Claim C2 -/

/-- C2 (counterexample): splitting a valid concatenated byte sequence at an
arbitrary byte offset does NOT always yield the same events as one chunk.
The wire `"data: {}\n\ndata: {}\n\ndata: [DONE]\n\n"` split at byte offset 8
(right after the first closing brace, a character boundary) yields one event;
as a single chunk it yields two. -/
theorem c2_counterexample :
    run okParse 4 ⟨[], [SrcItem.ok (asciiB "data: \x7b\x7d".toList),
        SrcItem.ok (asciiB "\n\ndata: \x7b\x7d\n\ndata: [DONE]\n\n".toList)]⟩
      = ([Except.ok "\x7b\x7d".toList], true) ∧
    run okParse 4
        ⟨[], [SrcItem.ok (asciiB "data: \x7b\x7d\n\ndata: \x7b\x7d\n\ndata: [DONE]\n\n".toList)]⟩
      = ([Except.ok "\x7b\x7d".toList, Except.ok "\x7b\x7d".toList], true) ∧
    (([Except.ok "\x7b\x7d".toList], true) : List (Except Str Str) × Bool)
      ≠ ([Except.ok "\x7b\x7d".toList, Except.ok "\x7b\x7d".toList], true) :=
  ⟨rfl, rfl, by simp⟩

/-- C2 (amended): splitting a valid concatenated sequence into two chunks
yields the same events as one chunk, provided the split is at a character
boundary and the residual partial frame `a` left at the end of the first
chunk is not itself emittable (`deserialize_buf` yields nothing on it — in
particular the split is not right after a closing brace).  Both deliveries
complete with exactly the parses of all payloads, in order. -/
theorem c2_amended {α : Type} (parse : Str → Except Str α) (qs rs : List Str)
    (a c2t : Str) (b1 b2 ball : List Nat)
    (hg : ∀ p ∈ qs ++ rs, goodPayload p)
    (ha : deserialize_buf parse a = none)
    (hsplit : a ++ c2t = framesOf rs ++ doneFrame)
    (hb1 : utf8Decode b1 = some (framesOf qs ++ a))
    (hb2 : utf8Decode b2 = some c2t)
    (hball : utf8Decode ball = some (framesOf (qs ++ rs) ++ doneFrame)) :
    Completes parse ⟨[], [SrcItem.ok b1, SrcItem.ok b2]⟩ ((qs ++ rs).map parse) ∧
    Completes parse ⟨[], [SrcItem.ok ball]⟩ ((qs ++ rs).map parse) := by
  have hgq : ∀ q ∈ qs, goodPayload q := fun q hq => hg q (List.mem_append_left _ hq)
  have hgr : ∀ q ∈ rs, goodPayload q := fun q hq => hg q (List.mem_append_right _ hq)
  have hdone : Completes parse ⟨doneFrame, []⟩ [] := by
    have h := completes_done parse []
    rwa [List.append_nil] at h
  have hrs : Completes parse ⟨framesOf rs ++ doneFrame, []⟩ (rs.map parse) := by
    have h := completes_drain hgr hdone
    simpa using h
  constructor
  · have hc2 : Completes parse ⟨a ++ c2t, []⟩ (rs.map parse) := by
      rw [hsplit]
      exact hrs
    have h2 := completes_read ha hb2 hc2
    have h1 := completes_drain hgq h2
    have h0 := completes_read (deserialize_buf_nil parse) hb1 (by simpa using h1)
    rw [List.map_append]
    exact h0
  · have hall : Completes parse ⟨framesOf (qs ++ rs) ++ doneFrame, []⟩
        ((qs ++ rs).map parse) := by
      have h := completes_drain hg hdone
      rwa [List.append_nil] at h
    have h0 := completes_read (deserialize_buf_nil parse) hball
      (by rw [List.nil_append]; exact hall)
    exact h0

/-- C2 witness: the wire `"data: {}\n\ndata: [DONE]\n\n"` split at offset 3
(inside the marker, a safe residual `"dat"`) yields the same single event and
completion as the whole wire in one chunk. -/
theorem c2_amended_witness :
    deserialize_buf okParse "dat".toList = none ∧
    Completes okParse ⟨[], [SrcItem.ok (asciiB "dat".toList),
        SrcItem.ok (asciiB "a: \x7b\x7d\n\ndata: [DONE]\n\n".toList)]⟩
      [Except.ok "\x7b\x7d".toList] ∧
    Completes okParse ⟨[], [SrcItem.ok (asciiB "data: \x7b\x7d\n\ndata: [DONE]\n\n".toList)]⟩
      [Except.ok "\x7b\x7d".toList] :=
  ⟨rfl,
    (c2_amended okParse [] ["\x7b\x7d".toList] "dat".toList
      "a: \x7b\x7d\n\ndata: [DONE]\n\n".toList
      (asciiB "dat".toList) (asciiB "a: \x7b\x7d\n\ndata: [DONE]\n\n".toList)
      (asciiB "data: \x7b\x7d\n\ndata: [DONE]\n\n".toList)
      (by decide) rfl rfl rfl rfl rfl).1,
    (c2_amended okParse [] ["\x7b\x7d".toList] "dat".toList
      "a: \x7b\x7d\n\ndata: [DONE]\n\n".toList
      (asciiB "dat".toList) (asciiB "a: \x7b\x7d\n\ndata: [DONE]\n\n".toList)
      (asciiB "data: \x7b\x7d\n\ndata: [DONE]\n\n".toList)
      (by decide) rfl rfl rfl rfl rfl).2⟩

/-! ### Claims C3 and C4 -/

/-- C3 (counterexample): a complete head frame `"oops\n\n"` without the
`data: ` marker does NOT surface a decode error: with a well-formed frame
right behind it in the same chunk and the source at its end, pulling yields
no item at all (no `Err`), the head is never removed, and the stream simply
reports end-of-stream — the well-formed frame behind it never decodes. -/
theorem c3_counterexample :
    run okParse 3 ⟨[], [SrcItem.ok (asciiB "oops\n\ndata: \x7b\x7d\n\n".toList)]⟩
      = ([], true) := rfl

/-- C3 (amended): a complete head frame whose text does not begin with the
`data: ` marker is silently ignored: `deserialize_buf` emits nothing (no
error item) and leaves the whole buffer — head frame included — unchanged,
and a pull with an exhausted source reports end-of-stream. -/
theorem c3_amended {α : Type} (parse : Str → Except Str α) {h : Str} (rest : Str)
    (h1 : hasNN h = false) (h2 : h.getLast? ≠ some nl) (h3 : stripTag h = none) :
    deserialize_buf parse (h ++ nn ++ rest) = none ∧
    poll parse ⟨h ++ nn ++ rest, []⟩ = (.ready none, ⟨h ++ nn ++ rest, []⟩, false) := by
  have hd := deserialize_buf_blocked parse h1 h2 (by simp [emits, h3]) rest
  exact ⟨hd, poll_end parse hd⟩

/-- C3 witness: the head frame `"oops"` blocks a well-formed frame behind it. -/
theorem c3_amended_witness :
    deserialize_buf okParse ("oops".toList ++ nn ++ "data: \x7b\x7d\n\n".toList) = none ∧
    poll okParse ⟨"oops".toList ++ nn ++ "data: \x7b\x7d\n\n".toList, []⟩
      = (.ready none, ⟨"oops".toList ++ nn ++ "data: \x7b\x7d\n\n".toList, []⟩, false) :=
  c3_amended okParse "data: \x7b\x7d\n\n".toList (by decide) (by decide) (by decide)

/-- C4 (counterexample): the frame `"data: {bad json\n\n"` of the claim never
returns a decode error: its payload does not end with `}`, so the decoder
treats it as incomplete, emits nothing — and it permanently blocks the
well-formed frame behind it; the stream ends with no item at all. -/
theorem c4_counterexample :
    run okParse 3
        ⟨[], [SrcItem.ok (asciiB "data: \x7bbad json\n\ndata: \x7b\x7d\n\n".toList)]⟩
      = ([], true) := rfl

/-- C4 (amended): a buffered frame whose payload carries the `data: ` marker
and ends with `}` but fails to parse (e.g. `data: {bad json}\n\n`) yields a
decode error on the pull that reaches it, and this does not prevent a
well-formed frame behind it in the buffer from decoding on the next pull;
the stream then completes. -/
theorem c4_amended {α : Type} (parse : Str → Except Str α) {q p : Str} {e : Str} {ev : α}
    (hq : goodPayload q) (hqe : parse q = .error e)
    (hp : goodPayload p) (hpe : parse p = .ok ev) :
    Completes parse ⟨frameOf q ++ (frameOf p ++ doneFrame), []⟩
      [.error e, .ok ev] := by
  have hdone : Completes parse ⟨doneFrame, []⟩ [] := by
    have h := completes_done parse []
    rwa [List.append_nil] at h
  have h1 : Completes parse ⟨frameOf p ++ doneFrame, []⟩ [Except.ok ev] := by
    have h := completes_emit (deserialize_buf_frame parse hp doneFrame) hdone
    rwa [hpe] at h
  have h0 := completes_emit (deserialize_buf_frame parse hq (frameOf p ++ doneFrame)) h1
  rwa [hqe] at h0

/-- C4 witness: with the parser model `lenParse`, `{bad json}` fails to parse
and `{}` parses; the stream yields the error, then the event, then ends. -/
theorem c4_amended_witness :
    goodPayload "\x7bbad json\x7d".toList ∧
    lenParse "\x7bbad json\x7d".toList = .error "\x7bbad json\x7d".toList ∧
    Completes lenParse
      ⟨frameOf "\x7bbad json\x7d".toList ++ (frameOf "\x7b\x7d".toList ++ doneFrame), []⟩
      [.error "\x7bbad json\x7d".toList, .ok "\x7b\x7d".toList] :=
  ⟨by decide, rfl, c4_amended lenParse (by decide) rfl (by decide) rfl⟩

/-! ### Claim C5 -/

/-- C5 (counterexample): `"data: {}"` is a proper prefix of the valid frame
`"data: {}\n\n"` (the trailing double line-break is missing), yet a pull
yields an event for it: the prefix ends with `}`, so the guard against
partial frames fails and the decoder emits the payload early. -/
theorem c5_counterexample :
    poll okParse ⟨[], [SrcItem.ok (asciiB "data: \x7b\x7d".toList)]⟩
      = (.ready (some (.ok "\x7b\x7d".toList)), ⟨[], []⟩, false) := rfl

theorem hasNN_take {l : Str} (h : hasNN l = false) (k : Nat) :
    hasNN (l.take k) = false := by
  induction l generalizing k with
  | nil => simp [hasNN]
  | cons a t ih =>
    cases k with
    | zero => rfl
    | succ k =>
      rw [List.take_succ_cons]
      apply hasNN_cons_of (ih (hasNN_tail h) k)
      rintro ⟨ha, hh⟩
      cases t with
      | nil => simp at hh
      | cons b t' =>
        cases k with
        | zero => simp at hh
        | succ k' =>
          have hb : b = nl := by simpa [List.take_succ_cons] using hh
          exact (hasNN_cons_cons h).1 ⟨ha, hb⟩

theorem hasNN_frame_take {p : Str} (hp : goodPayload p) {k : Nat}
    (hk : k < (frameOf p).length) : hasNN ((frameOf p).take k) = false := by
  obtain ⟨hnn, hbr⟩ := hp
  have hpne : p ≠ [] := endsWithBrace_ne_nil hbr
  have hx : hasNN (dataTag ++ p) = false := by
    apply hasNN_append (by decide) hnn
    intro h
    exact absurd h (by decide)
  have hlast : (dataTag ++ p).getLast? ≠ some nl := by
    rw [List.getLast?_append_of_ne_nil _ hpne, endsWithBrace_getLast? hbr]
    decide
  have hform : frameOf p = (dataTag ++ p) ++ nn := by simp [frameOf]
  have hlen : (frameOf p).length = (dataTag ++ p).length + 2 := by
    rw [hform]
    simp [nn]
    omega
  rw [hform, List.take_append_eq_append_take]
  rcases le_or_lt k (dataTag ++ p).length with hle | hgt
  · rw [Nat.sub_eq_zero_of_le hle]
    simpa using hasNN_take hx k
  · have hk1 : k = (dataTag ++ p).length + 1 := by omega
    subst hk1
    rw [List.take_of_length_le (by omega), Nat.add_sub_cancel_left]
    exact hasNN_append hx (by decide) (fun h => absurd h hlast)

/-- C5 (amended): for every proper prefix of a valid frame that is not
emittable (after the marker it does not already end with `}`), a pull yields
nothing from the buffer, does not report end-of-stream while the source still
has an item, and requests more bytes: it consumes the next source chunk. -/
theorem c5_amended {α : Type} (parse : Str → Except Str α) {p : Str} {k : Nat}
    (hp : goodPayload p) (hk : k < (frameOf p).length)
    (hbr : emits ((frameOf p).take k) = false)
    (bytes : List Nat) (rest : List SrcItem) :
    deserialize_buf parse ((frameOf p).take k) = none ∧
    (poll parse ⟨(frameOf p).take k, SrcItem.ok bytes :: rest⟩).1 ≠ .ready none ∧
    (poll parse ⟨(frameOf p).take k, SrcItem.ok bytes :: rest⟩).2.1.source = rest := by
  have htake := hasNN_frame_take hp hk
  have hnone := deserialize_buf_incomplete parse htake hbr
  refine ⟨hnone, ?_⟩
  cases hd : utf8Decode bytes with
  | none =>
    rw [poll_read_badutf8 parse hnone hd rest]
    exact ⟨by simp, rfl⟩
  | some data =>
    cases he : deserialize_buf parse ((frameOf p).take k ++ data) with
    | none =>
      rw [poll_read_pending parse hnone hd he rest]
      exact ⟨by simp, rfl⟩
    | some v =>
      obtain ⟨item, buf2, w⟩ := v
      rw [poll_read_emit parse hnone hd he rest]
      exact ⟨by simp, rfl⟩

/-- C5 witness: the prefix `"data: {"` of the frame `"data: {}\n\n"` yields
nothing, does not report stream end, and consumes the next source chunk. -/
theorem c5_amended_witness :
    (goodPayload "\x7b\x7d".toList ∧ 7 < (frameOf "\x7b\x7d".toList).length ∧
      emits ((frameOf "\x7b\x7d".toList).take 7) = false) ∧
    deserialize_buf okParse ((frameOf "\x7b\x7d".toList).take 7) = none ∧
    (poll okParse ⟨(frameOf "\x7b\x7d".toList).take 7, [SrcItem.ok []]⟩).1 ≠ .ready none ∧
    (poll okParse ⟨(frameOf "\x7b\x7d".toList).take 7, [SrcItem.ok []]⟩).2.1.source
      = ([] : List SrcItem) :=
  ⟨⟨by decide, by decide, by decide⟩,
    c5_amended okParse (by decide) (by decide) (by decide) [] []⟩

/-! ### Claim C6 -/

/-- C6 (counterexample): a chunk of invalid UTF-8 bytes surfaces a decode
error, but the error is NOT fatal: the stream does not become exhausted, and
the very next pull still yields an event from the following chunk. -/
theorem c6_counterexample :
    run okParse 3 ⟨[], [SrcItem.ok [255], SrcItem.ok (asciiB "data: \x7b\x7d\n\n".toList)]⟩
      = ([.error utf8ErrMsg, .ok "\x7b\x7d".toList], true) := rfl

/-- C6 (amended): when the next chunk's bytes are not valid UTF-8 (and the
buffer has no complete frame), the pull surfaces a decode error and drops the
chunk's bytes, but the stream is not terminated: the state keeps the same
buffer and continues with the remaining source, so later pulls may still
yield events. -/
theorem c6_amended {α : Type} (parse : Str → Except Str α) {buf : Str} {bytes : List Nat}
    (hb : deserialize_buf parse buf = none) (hd : utf8Decode bytes = none)
    (rest : List SrcItem) :
    poll parse ⟨buf, SrcItem.ok bytes :: rest⟩
      = (.ready (some (.error utf8ErrMsg)), ⟨buf, rest⟩, false) :=
  poll_read_badutf8 parse hb hd rest

/-- C6 witness: the invalid byte `0xFF` surfaces the error and leaves the
stream alive with the remaining source. -/
theorem c6_amended_witness :
    utf8Decode [255] = none ∧
    poll okParse ⟨[], [SrcItem.ok [255], SrcItem.ok (asciiB "data: \x7b\x7d\n\n".toList)]⟩
      = (.ready (some (.error utf8ErrMsg)),
          ⟨[], [SrcItem.ok (asciiB "data: \x7b\x7d\n\n".toList)]⟩, false) :=
  ⟨rfl, c6_amended okParse (deserialize_buf_nil okParse) (by rfl)
    [SrcItem.ok (asciiB "data: \x7b\x7d\n\n".toList)]⟩

/-! ### Claim C7 -/

/-- C7: when the head of the buffer is the termination frame `data: [DONE]`
and the underlying source is exhausted (as it is after the final frame of the
protocol), the pull reports end-of-stream without decoding the token as an
event, the state never changes, and any bytes remaining in the buffer behind
the token are discarded: no matter how often the stream is pulled, no event
is ever produced from them. -/
theorem c7_done_discards {α : Type} (parse : Str → Except Str α) (rest : Str) :
    poll parse ⟨doneFrame ++ rest, []⟩ = (.ready none, ⟨doneFrame ++ rest, []⟩, false) ∧
    ∀ f, run parse (f + 1) ⟨doneFrame ++ rest, []⟩ = ([], true) := by
  have hd := deserialize_buf_done parse rest
  exact ⟨poll_end parse hd, fun f => run_end (poll_end parse hd) f⟩

/-! ### Claim C8 -/

theorem hasNN_dataTag_append {p : Str} (hnn : hasNN p = false) :
    hasNN (dataTag ++ p) = false := by
  apply hasNN_append (by decide) hnn
  intro h
  exact absurd h (by decide)

theorem getLast?_dataTag_append {p : Str} (hbr : endsWithBrace p = true) :
    (dataTag ++ p).getLast? ≠ some nl := by
  rw [List.getLast?_append_of_ne_nil _ (endsWithBrace_ne_nil hbr),
    endsWithBrace_getLast? hbr]
  decide

/-- The look-ahead flag on a buffer remainder that is exactly one complete
well-formed frame: the peeked second segment ends with `}`, so a wake is
scheduled. -/
theorem wakeOf_frame {p : Str} (hp : goodPayload p) : wakeOf (frameOf p) = true := by
  obtain ⟨hnn, hbr⟩ := hp
  have hform : frameOf p = (dataTag ++ p) ++ nn ++ [] := by simp [frameOf]
  have hsp : splitOnNN (frameOf p) = [dataTag ++ p, []] := by
    rw [hform, splitOnNN_append _ _ (hasNN_dataTag_append hnn) (getLast?_dataTag_append hbr)]
    rfl
  rw [wakeOf, hsp]
  dsimp only [List.head?]
  rw [endsWithBrace_append (endsWithBrace_ne_nil hbr)]
  exact hbr

/-- C8: a single chunk holding two complete well-formed data frames yields
both events in two pulls with no intervening source reads: the first pull
consumes the chunk, emits the first event and schedules a wake (the
look-ahead found the second complete frame), and the second pull emits the
second event straight from the buffer, leaving the source untouched. -/
theorem c8_lookahead {α : Type} (parse : Str → Except Str α) {p1 p2 : Str} {e1 e2 : α}
    {bytes : List Nat}
    (h1 : goodPayload p1) (h2 : goodPayload p2)
    (hd : utf8Decode bytes = some (frameOf p1 ++ frameOf p2))
    (he1 : parse p1 = .ok e1) (he2 : parse p2 = .ok e2) (rest : List SrcItem) :
    poll parse ⟨[], SrcItem.ok bytes :: rest⟩
      = (.ready (some (.ok e1)), ⟨frameOf p2, rest⟩, true) ∧
    poll parse ⟨frameOf p2, rest⟩ = (.ready (some (.ok e2)), ⟨[], rest⟩, false) := by
  constructor
  · have hd1 := deserialize_buf_frame parse h1 (frameOf p2)
    rw [he1, wakeOf_frame h2] at hd1
    exact poll_read_emit parse (deserialize_buf_nil parse) hd
      (by rw [List.nil_append]; exact hd1) rest
  · have hd2 := deserialize_buf_frame parse h2 []
    rw [List.append_nil, he2] at hd2
    have hw : wakeOf [] = false := rfl
    rw [hw] at hd2
    exact poll_emit parse hd2

/-- C8 witness: the chunk `"data: {}\n\ndata: {x}\n\n"` yields both events in
two pulls, the first pull setting the wake flag, the second touching no
source bytes. -/
theorem c8_lookahead_witness :
    goodPayload "\x7b\x7d".toList ∧
    poll okParse ⟨[], [SrcItem.ok (asciiB "data: \x7b\x7d\n\ndata: \x7bx\x7d\n\n".toList)]⟩
      = (.ready (some (.ok "\x7b\x7d".toList)), ⟨frameOf "\x7bx\x7d".toList, []⟩, true) ∧
    poll okParse ⟨frameOf "\x7bx\x7d".toList, []⟩
      = (.ready (some (.ok "\x7bx\x7d".toList)), ⟨[], []⟩, false) :=
  ⟨by decide,
    (c8_lookahead okParse (by decide) (by decide)
      (show utf8Decode (asciiB "data: \x7b\x7d\n\ndata: \x7bx\x7d\n\n".toList)
          = some (frameOf "\x7b\x7d".toList ++ frameOf "\x7bx\x7d".toList) from rfl)
      rfl rfl []).1,
    (c8_lookahead okParse (by decide) (by decide)
      (show utf8Decode (asciiB "data: \x7b\x7d\n\ndata: \x7bx\x7d\n\n".toList)
          = some (frameOf "\x7b\x7d".toList ++ frameOf "\x7bx\x7d".toList) from rfl)
      rfl rfl []).2⟩

/-! ### Claim C9 -/

/-- C9: once a pull has reported end-of-stream — the source is exhausted and
the buffer yields no frame, as after the termination frame was reached — the
state is a fixed point: every further pull returns end-of-stream again,
without error, any number of times. -/
theorem c9_idempotent {α : Type} (parse : Str → Except Str α) {buf : Str}
    (h : deserialize_buf parse buf = none) :
    poll parse ⟨buf, []⟩ = (.ready none, ⟨buf, []⟩, false) ∧
    ∀ n, run parse (n + 1) ⟨buf, []⟩ = ([], true) :=
  ⟨poll_end parse h, fun n => run_end (poll_end parse h) n⟩

/-- C9 witness: with the termination frame buffered and the source ended,
pulling reports end-of-stream with the state unchanged, at any fuel. -/
theorem c9_idempotent_witness :
    deserialize_buf okParse doneFrame = none ∧
    poll okParse ⟨doneFrame, []⟩ = (.ready none, ⟨doneFrame, []⟩, false) ∧
    run okParse 5 ⟨doneFrame, []⟩ = ([], true) :=
  ⟨by rfl, (c9_idempotent okParse (by rfl)).1, (c9_idempotent okParse (by rfl)).2 4⟩

/-! ### Claim C10 -/

/-- C10: only the first delimiter-separated segment of the buffer is ever
considered.  If the complete head segment `h` does not both begin with
`data: ` and end (stripped) with `}`, then `deserialize_buf` emits nothing
and the head is never removed; as long as the source delivers valid text,
no pull ever produces any item — a complete well-formed frame behind the
head (in `rest` or arriving later) is permanently blocked. -/
theorem c10_blocked_head {α : Type} (parse : Str → Except Str α) {h : Str}
    (h1 : hasNN h = false) (h2 : h.getLast? ≠ some nl) (h3 : emits h = false)
    (rest : Str) (src : List SrcItem) (f : Nat)
    (hsrc : ∀ c ∈ src, ∃ bytes data, c = SrcItem.ok bytes ∧ utf8Decode bytes = some data) :
    deserialize_buf parse (h ++ nn ++ rest) = none ∧
    (run parse f ⟨h ++ nn ++ rest, src⟩).1 = [] := by
  refine ⟨deserialize_buf_blocked parse h1 h2 h3 rest, ?_⟩
  induction f generalizing rest src with
  | zero => rfl
  | succ f ih =>
    have hd := deserialize_buf_blocked parse h1 h2 h3 rest
    cases src with
    | nil =>
      rw [run_end (poll_end parse hd)]
    | cons c src' =>
      obtain ⟨bytes, data, rfl, hdec⟩ := hsrc c (List.mem_cons_self c src')
      have hassoc : (h ++ nn ++ rest) ++ data = h ++ nn ++ (rest ++ data) := by simp
      have hd2 : deserialize_buf parse ((h ++ nn ++ rest) ++ data) = none := by
        rw [hassoc]
        exact deserialize_buf_blocked parse h1 h2 h3 (rest ++ data)
      rw [run_pending (poll_read_pending parse hd hdec hd2 src') f, hassoc]
      exact ih (rest ++ data) src' (fun c hc => hsrc c (List.mem_cons_of_mem _ hc))

/-- C10 witness: the bad head `"oops"` blocks a complete well-formed frame
already behind it and another arriving from the source: no item is ever
produced. -/
theorem c10_blocked_head_witness :
    (hasNN "oops".toList = false ∧ emits "oops".toList = false) ∧
    deserialize_buf okParse ("oops".toList ++ nn ++ frameOf "\x7b\x7d".toList) = none ∧
    (run okParse 5 ⟨"oops".toList ++ nn ++ frameOf "\x7b\x7d".toList,
        [SrcItem.ok (asciiB "data: \x7bx\x7d\n\n".toList)]⟩).1 = [] :=
  ⟨⟨by decide, by decide⟩,
    (c10_blocked_head okParse (by decide) (by decide) (by decide)
      (frameOf "\x7b\x7d".toList) [SrcItem.ok (asciiB "data: \x7bx\x7d\n\n".toList)] 5
      (by
        intro c hc
        rw [List.mem_singleton] at hc
        subst hc
        exact ⟨asciiB "data: \x7bx\x7d\n\n".toList, "data: \x7bx\x7d\n\n".toList, rfl, rfl⟩)).1,
    (c10_blocked_head okParse (by decide) (by decide) (by decide)
      (frameOf "\x7b\x7d".toList) [SrcItem.ok (asciiB "data: \x7bx\x7d\n\n".toList)] 5
      (by
        intro c hc
        rw [List.mem_singleton] at hc
        subst hc
        exact ⟨asciiB "data: \x7bx\x7d\n\n".toList, "data: \x7bx\x7d\n\n".toList, rfl, rfl⟩)).2⟩
